import Mathlib

/-!
# Verification of the plugin discovery cache (`plugin_helpers.py` / `reaper_mcp_server.py`)

Shallow embedding of the plugin inventory subsystem of the repository:

* `PluginScanner._scan_folder` — an `os.walk`-based traversal of one root
  that records bundle-style plugin directories (pruning descent into them)
  and plugin-suffixed plain files, optionally validating each candidate by
  attempting to load it via an external `load_plugin` capability;
* `PluginScanner._rescan`, `ensure_cache`, `get_installed_plugins`,
  `force_scan` — the TTL-based cache controller on top of the walk;
* `list_installed_fx`, `type_from_path`, `category_from_path` — the server
  tool that decorates and truncates the cached inventory.

Filesystems are modelled as finite directory trees (`FSTree`), the external
`load_plugin` capability as an oracle `String → Option (Option String)`
(`none` = the load raised; `some optName` = success, with the optional
`plugin_name` attribute), and `time.time()` as an explicit rational-valued
instant passed to each operation.  Paths are flat strings joined with `"/"`
exactly as `os.path.join` does on posix.
-/

namespace ReaperMcp

/-- Concatenation of the results of `f` over a list, in order.  Used to model
the Python pattern `for x in xs: results.extend(f(x))`. -/
def joinMap (f : α → List β) : List α → List β
  | [] => []
  | a :: l => f a ++ joinMap f l

@[simp] theorem joinMap_nil (f : α → List β) : joinMap f [] = [] := rfl

@[simp] theorem joinMap_cons (f : α → List β) (a : α) (l : List α) :
    joinMap f (a :: l) = f a ++ joinMap f l := rfl

theorem joinMap_append (f : α → List β) (l₁ l₂ : List α) :
    joinMap f (l₁ ++ l₂) = joinMap f l₁ ++ joinMap f l₂ := by
  induction l₁ with
  | nil => simp
  | cons a l ih => simp [ih]

/-- Model of Python's `str.lower()` (ASCII case folding, which is all the
recognized suffixes need). -/
def pyLower (s : String) : String := ⟨s.data.map Char.toLower⟩

/-- Model of Python's `str.endswith(suffix)`: suffix test on the underlying
character sequences. -/
def pyEndsWith (s suffix : String) : Bool := suffix.data.isSuffixOf s.data

/-- `os.path.join(root, name)` on posix: `root + "/" + name` (all roots in the
claims are slash-free-tail absolute paths, so no special casing is needed). -/
def pathAppend (root name : String) : String := root ++ "/" ++ name

/-- A finite filesystem subtree: named subdirectories and plain file names,
in the order `os.walk` yields them. -/
inductive FSTree : Type where
  | node (dirs : List (String × FSTree)) (files : List String)
deriving Repr

namespace FSTree

@[simp] theorem sizeOf_node (dirs : List (String × FSTree)) (files : List String) :
    sizeOf (FSTree.node dirs files) = 1 + sizeOf dirs + sizeOf files := by
  simp

theorem sizeOf_snd_lt_of_mem {dirs : List (String × FSTree)} {files : List String}
    {p : String × FSTree} (h : p ∈ dirs) :
    sizeOf p.2 < sizeOf (FSTree.node dirs files) := by
  have h₁ : sizeOf p < sizeOf dirs := List.sizeOf_lt_of_mem h
  have h₂ : sizeOf p.2 < sizeOf p := by
    obtain ⟨a, b⟩ := p
    simp
  simp
  omega

/-- Custom induction principle for the nested inductive `FSTree`. -/
theorem inductionOn {P : FSTree → Prop}
    (h : ∀ dirs files, (∀ p ∈ dirs, P p.2) → P (FSTree.node dirs files)) :
    ∀ t, P t := by
  have key : ∀ n, ∀ t : FSTree, sizeOf t ≤ n → P t := by
    intro n
    induction n with
    | zero =>
      intro t ht
      obtain ⟨dirs, files⟩ := t
      simp at ht
    | succ n ih =>
      intro t ht
      obtain ⟨dirs, files⟩ := t
      refine h dirs files fun p hp => ih p.2 ?_
      have := @sizeOf_snd_lt_of_mem dirs files p hp
      omega
  exact fun t => key (sizeOf t) t le_rfl

end FSTree

/-- `plugin_helpers.py:74`: `d.lower().endswith(('.vst3', '.component', '.vst'))`
— the bundle-directory suffix test of `_scan_folder`. -/
def isBundleName (d : String) : Bool :=
  pyEndsWith (pyLower d) ".vst3" || pyEndsWith (pyLower d) ".component" ||
    pyEndsWith (pyLower d) ".vst"

/-- `plugin_helpers.py:92`:
`fn.lower().endswith(('.vst3', '.vst', '.component', '.au', '.so', '.dylib'))`
— the plain-file suffix test of `_scan_folder`. -/
def isPluginFileName (fn : String) : Bool :=
  pyEndsWith (pyLower fn) ".vst3" || pyEndsWith (pyLower fn) ".vst" ||
    pyEndsWith (pyLower fn) ".component" || pyEndsWith (pyLower fn) ".au" ||
    pyEndsWith (pyLower fn) ".so" || pyEndsWith (pyLower fn) ".dylib"

/-- One discovered candidate: `{"name": .., "path": ..}`
(`plugin_helpers.py:31`). -/
structure PluginRecord where
  name : String
  path : String
deriving DecidableEq, Repr

/-- The configuration and external capability `_scan_folder` consults for one
candidate: the `validate_plugins` flag and the `pedalboard.load_plugin`
oracle.  `load full = none` models `load_plugin(full)` raising;
`load full = some optName` models success, where `optName` is
`plugin.plugin_name` when the handle has that attribute and `none` when it
does not (`hasattr` false). -/
structure ScanCfg where
  validate_plugins : Bool
  load : String → Option (Option String)

/-- The per-candidate record/validate logic of `_scan_folder`, shared verbatim
by the bundle branch (`plugin_helpers.py:76-86`) and the file branch
(`plugin_helpers.py:94-104`): with validation, a failed load yields no record
and a successful load yields `{name: plugin_name-or-entry-name, path: full}`;
without validation the entry is recorded unconditionally. -/
def recordCandidate (cfg : ScanCfg) (entryName full : String) : Option PluginRecord :=
  if cfg.validate_plugins then
    match cfg.load full with
    | some optName => some ⟨optName.getD entryName, full⟩
    | none => none
  else some ⟨entryName, full⟩

/-- `PluginScanner._scan_folder` (`plugin_helpers.py:59-105`): the `os.walk`
traversal of one root.  At each directory, in yield order: records for the
bundle-suffixed subdirectories (which are then removed from `dirs`, so the
walk never descends into them), then records for suffix-matching plain
files, then — because `os.walk` is top-down — the records of each remaining
subdirectory in order. -/
def scanFolder (cfg : ScanCfg) (root : String) : FSTree → List PluginRecord
  | FSTree.node dirs files =>
    let bundleRecs := (dirs.filter fun p => isBundleName p.1).filterMap
      fun p => recordCandidate cfg p.1 (pathAppend root p.1)
    let fileRecs := (files.filter fun fn => isPluginFileName fn).filterMap
      fun fn => recordCandidate cfg fn (pathAppend root fn)
    let rest := joinMap
      (fun p => scanFolder cfg (pathAppend root p.1.1) p.1.2)
      (dirs.filter fun p => !isBundleName p.1).attach
    bundleRecs ++ fileRecs ++ rest
termination_by t => sizeOf t
decreasing_by
  exact FSTree.sizeOf_snd_lt_of_mem (List.mem_of_mem_filter p.2)

/-- The relative component paths of every candidate the walk considers, in
walk order: `[d]` for a bundle directory `d`, `[fn]` for a matching file
`fn`, and `n :: l` for a candidate at relative path `l` inside a non-bundle
subdirectory `n`. -/
def candPaths : FSTree → List (List String)
  | FSTree.node dirs files =>
    (dirs.filter fun p => isBundleName p.1).map (fun p => [p.1]) ++
      (files.filter fun fn => isPluginFileName fn).map (fun fn => [fn]) ++
      joinMap (fun p => (candPaths p.1.2).map (p.1.1 :: ·))
        (dirs.filter fun p => !isBundleName p.1).attach
termination_by t => sizeOf t
decreasing_by
  exact FSTree.sizeOf_snd_lt_of_mem (List.mem_of_mem_filter p.2)

/-- Flatten a relative component path under a root, applying
`os.path.join` left to right. -/
def flattenPath (root : String) (l : List String) : String :=
  l.foldl pathAppend root

/-- A legal filesystem entry name: nonempty and free of the path separator. -/
def goodName (n : String) : Prop := n ≠ "" ∧ '/' ∉ n.data

instance goodName.dec (n : String) : Decidable (goodName n) :=
  decidable_of_iff (n ≠ "" ∧ '/' ∉ n.data) Iff.rfl

/-- Well-formedness of a filesystem tree, true of every real directory tree:
entry names are nonempty, contain no path separator, and are unique within
each directory. -/
def treeWF : FSTree → Bool
  | FSTree.node dirs files =>
    ((dirs.map Prod.fst ++ files).all fun n => decide (goodName n)) &&
      (dirs.map Prod.fst ++ files).Nodup &&
      (dirs.attach.all fun p => treeWF p.1.2)
termination_by t => sizeOf t
decreasing_by
  exact FSTree.sizeOf_snd_lt_of_mem p.2

/-- The ambient filesystem, seen per scanned root: `fs root = some t` means
`os.walk(root)` traverses the tree `t`; `fs root = none` means scanning that
root raises (the situation caught by the `try/except` of `_rescan`,
`plugin_helpers.py:111-115`). -/
def RootFS := String → Option FSTree

/-- The walk-and-concatenate loop of `PluginScanner._rescan`
(`plugin_helpers.py:109-115`): scan each configured root in order,
extending `combined` with its records; a root whose scan raises is skipped
(`except Exception: continue`). -/
def rescanCombined (fs : RootFS) (cfg : ScanCfg) (roots : List String) :
    List PluginRecord :=
  joinMap
    (fun p => match fs p with
      | none => []
      | some t => scanFolder cfg p t)
    roots

/-- The mutable state of a `PluginScanner` plus its construction-time
configuration (`plugin_helpers.py:16-32`).  `time.time()` values and
`cache_ttl_seconds` are rationals (Python floats / ints). -/
structure ScannerState where
  plugin_paths : List String
  cache_ttl_seconds : ℚ
  cfg : ScanCfg
  cache_timestamp : ℚ
  cache : List PluginRecord

/-- `PluginScanner.__init__` (`plugin_helpers.py:16-32`): empty cache,
timestamp `0.0`. -/
def ScannerState.init (paths : List String) (ttl : ℚ) (cfg : ScanCfg) :
    ScannerState :=
  { plugin_paths := paths, cache_ttl_seconds := ttl, cfg := cfg,
    cache_timestamp := 0, cache := [] }

/-- `PluginScanner._rescan` (`plugin_helpers.py:107-118`): walk every root,
then replace the cache and stamp it with `time.time()` (`scanTime`, sampled
after the walk) under the lock. -/
def ScannerState.rescan (fs : RootFS) (scanTime : ℚ) (s : ScannerState) :
    ScannerState :=
  { s with cache := rescanCombined fs s.cfg s.plugin_paths,
           cache_timestamp := scanTime }

/-- `PluginScanner.ensure_cache` (`plugin_helpers.py:120-125`): rescan iff
`(now - self._cache_timestamp) > self.cache_ttl_seconds or not self._cache`.
`now` is the `time.time()` sampled by `ensure_cache` itself; `scanTime` the
one `_rescan` samples after the walk. -/
def ScannerState.ensureCache (fs : RootFS) (now scanTime : ℚ) (s : ScannerState) :
    ScannerState :=
  if now - s.cache_timestamp > s.cache_ttl_seconds ∨ s.cache = [] then
    s.rescan fs scanTime
  else s

/-- `PluginScanner.get_installed_plugins` (`plugin_helpers.py:127-134`):
`ensure_cache`, then return a copy of the cache (with the resulting state). -/
def ScannerState.getInstalledPlugins (fs : RootFS) (now scanTime : ℚ)
    (s : ScannerState) : List PluginRecord × ScannerState :=
  let s' := s.ensureCache fs now scanTime
  (s'.cache, s')

/-- `PluginScanner.force_scan` (`plugin_helpers.py:136-140`): rescan
unconditionally, then return a copy of the cache. -/
def ScannerState.forceScan (fs : RootFS) (scanTime : ℚ) (s : ScannerState) :
    List PluginRecord × ScannerState :=
  let s' := s.rescan fs scanTime
  (s'.cache, s')

/-!
## The server layer (`reaper_mcp_server.py`)
-/

/-- `type_from_path` (`reaper_mcp_server.py:200-212`): suffix heuristics over
the lowercased path, tested in source order. -/
def type_from_path (path : String) : String :=
  let lower := pyLower path
  if pyEndsWith lower ".vst3" then "VST3"
  else if pyEndsWith lower ".vst" then "VST"
  else if pyEndsWith lower ".component" || pyEndsWith lower ".au" then "AU"
  else if pyEndsWith lower ".dll" then "VST"
  else if pyEndsWith lower ".so" || pyEndsWith lower ".dylib" then "VST/Other"
  else ""

/-- The `for i, part in enumerate(parts)` loop of `category_from_path`
(`reaper_mcp_server.py:216-220`): return the component following the first
recognized plugin-folder component, when one follows. -/
def categoryScan : List String → Option String
  | [] => none
  | part :: rest =>
    if (["plug-ins", "plugins", "vst3", "vst", "components"].contains
          (pyLower part)) && !(rest = []) then
      rest.head?
    else categoryScan rest

/-- `category_from_path` (`reaper_mcp_server.py:214-220`).  `normpath` is the
ambient `os.path.normpath`; on posix `os.sep` is `"/"`, and Python's
`str.split` keeps empty fields exactly as `String.split` does. -/
def category_from_path (normpath : String → String) (path : String) :
    Option String :=
  categoryScan ((normpath path).split (· = '/'))

/-- One entry of the `plugins` list built by `list_installed_fx`
(`reaper_mcp_server.py:234-241`). -/
structure FxMeta where
  name : String
  ident : String
  plugin_type : String
  vendor : Option String
  category : Option String
  is_instrument : Bool
deriving DecidableEq, Repr

/-- The per-entry metadata dict of `list_installed_fx`
(`reaper_mcp_server.py:230-241`). -/
def metaOf (normpath : String → String) (entry : PluginRecord) : FxMeta :=
  { name := entry.name, ident := entry.path,
    plugin_type := type_from_path entry.path, vendor := none,
    category := category_from_path normpath entry.path, is_instrument := false }

/-- The accumulation loop of `list_installed_fx`
(`reaper_mcp_server.py:229-244`): append the metadata of each raw entry and
stop as soon as `limit is not None and len(plugins) >= limit` — the check
runs *after* the append. -/
def collectFx (normpath : String → String) (limit : Option ℤ)
    (acc : List FxMeta) : List PluginRecord → List FxMeta
  | [] => acc
  | entry :: rest =>
    let acc' := acc ++ [metaOf normpath entry]
    match limit with
    | some l => if (acc'.length : ℤ) ≥ l then acc' else collectFx normpath limit acc' rest
    | none => collectFx normpath limit acc' rest

/-- The result dict of `list_installed_fx` (`reaper_mcp_server.py:250`). -/
structure FxListing where
  count : ℕ
  plugins : List FxMeta
deriving DecidableEq, Repr

/-- `list_installed_fx` (`reaper_mcp_server.py:197-250`): take the raw
records from `force_scan` when `refresh_js` else from
`get_installed_plugins`, decorate and truncate them, and return
`{count: len(plugins), plugins}` together with the scanner state left
behind. -/
def list_installed_fx (normpath : String → String) (fs : RootFS)
    (refresh_js : Bool) (limit : Option ℤ) (now scanTime : ℚ)
    (s : ScannerState) : FxListing × ScannerState :=
  let raw := if refresh_js then s.forceScan fs scanTime
             else s.getInstalledPlugins fs now scanTime
  let plugins := collectFx normpath limit [] raw.1
  ({ count := plugins.length, plugins := plugins }, raw.2)

/-!
## General lemmas
-/

theorem joinMap_map (f : γ → List β) (φ : α → γ) (l : List α) :
    joinMap f (l.map φ) = joinMap (fun x => f (φ x)) l := by
  induction l with
  | nil => rfl
  | cons a l ih => simp [ih]

theorem joinMap_attach (g : α → List β) (l : List α) :
    joinMap (fun p => g p.1) l.attach = joinMap g l := by
  induction l with
  | nil => rfl
  | cons a l ih =>
    rw [List.attach_cons]
    simp only [joinMap_cons, joinMap_map]
    rw [show (fun x : {x // x ∈ l} => g (⟨x.1, by simp [x.2]⟩ : {x // x ∈ a :: l}).1)
          = (fun x : {x // x ∈ l} => g x.1) from rfl, ih]

theorem all_attach (g : α → Bool) (l : List α) :
    (l.attach.all fun p => g p.1) = l.all g := by
  rw [Bool.eq_iff_iff]
  simp [List.all_eq_true]

theorem joinMap_congr {f g : α → List β} {l : List α} (h : ∀ a ∈ l, f a = g a) :
    joinMap f l = joinMap g l := by
  induction l with
  | nil => rfl
  | cons a l ih =>
    simp only [joinMap_cons, h a (List.mem_cons_self a l)]
    rw [ih fun x hx => h x (List.mem_cons_of_mem a hx)]

theorem mem_joinMap {f : α → List β} {l : List α} {b : β} :
    b ∈ joinMap f l ↔ ∃ a ∈ l, b ∈ f a := by
  induction l with
  | nil => simp
  | cons a l ih => simp [ih]

theorem filterMap_joinMap (g : β → Option γ) (f : α → List β) (l : List α) :
    (joinMap f l).filterMap g = joinMap (fun a => (f a).filterMap g) l := by
  induction l with
  | nil => rfl
  | cons a l ih => simp [ih]

theorem map_joinMap (g : β → γ) (f : α → List β) (l : List α) :
    (joinMap f l).map g = joinMap (fun a => (f a).map g) l := by
  induction l with
  | nil => rfl
  | cons a l ih => simp [ih]

/-!
## Attach-free unfolding equations for the tree recursions
-/

theorem scanFolder_node (cfg : ScanCfg) (root : String)
    (dirs : List (String × FSTree)) (files : List String) :
    scanFolder cfg root (FSTree.node dirs files) =
      (dirs.filter fun p => isBundleName p.1).filterMap
          (fun p => recordCandidate cfg p.1 (pathAppend root p.1)) ++
        (files.filter fun fn => isPluginFileName fn).filterMap
          (fun fn => recordCandidate cfg fn (pathAppend root fn)) ++
        joinMap (fun p => scanFolder cfg (pathAppend root p.1) p.2)
          (dirs.filter fun p => !isBundleName p.1) := by
  rw [scanFolder]
  exact congrArg _
    (joinMap_attach (fun q : String × FSTree => scanFolder cfg (pathAppend root q.1) q.2) _)

theorem candPaths_node (dirs : List (String × FSTree)) (files : List String) :
    candPaths (FSTree.node dirs files) =
      (dirs.filter fun p => isBundleName p.1).map (fun p => [p.1]) ++
        (files.filter fun fn => isPluginFileName fn).map (fun fn => [fn]) ++
        joinMap (fun p => (candPaths p.2).map (p.1 :: ·))
          (dirs.filter fun p => !isBundleName p.1) := by
  rw [candPaths]
  exact congrArg _
    (joinMap_attach (fun q : String × FSTree => (candPaths q.2).map (q.1 :: ·)) _)

theorem treeWF_node (dirs : List (String × FSTree)) (files : List String) :
    treeWF (FSTree.node dirs files) =
      (((dirs.map Prod.fst ++ files).all fun n => decide (goodName n)) &&
        (dirs.map Prod.fst ++ files).Nodup &&
        (dirs.all fun p => treeWF p.2)) := by
  rw [treeWF]
  exact congrArg _ (all_attach (fun q : String × FSTree => treeWF q.2) _)

/-!
## The candidate list seen by the walk

`candList root t` is the sequence of `(entryName, fullPath)` pairs the walk
of `_scan_folder` submits to the per-candidate record/validate logic, in
walk order.  `scanFolder` is exactly `recordCandidate` filter-mapped over
it, which is the backbone of the uniqueness, validation and bundle-pruning
claims.
-/

def candList (root : String) : FSTree → List (String × String)
  | FSTree.node dirs files =>
    (dirs.filter fun p => isBundleName p.1).map (fun p => (p.1, pathAppend root p.1)) ++
      (files.filter fun fn => isPluginFileName fn).map (fun fn => (fn, pathAppend root fn)) ++
      joinMap (fun p => candList (pathAppend root p.1.1) p.1.2)
        (dirs.filter fun p => !isBundleName p.1).attach
termination_by t => sizeOf t
decreasing_by
  exact FSTree.sizeOf_snd_lt_of_mem (List.mem_of_mem_filter p.2)

theorem candList_node (root : String) (dirs : List (String × FSTree))
    (files : List String) :
    candList root (FSTree.node dirs files) =
      (dirs.filter fun p => isBundleName p.1).map (fun p => (p.1, pathAppend root p.1)) ++
        (files.filter fun fn => isPluginFileName fn).map (fun fn => (fn, pathAppend root fn)) ++
        joinMap (fun p => candList (pathAppend root p.1) p.2)
          (dirs.filter fun p => !isBundleName p.1) := by
  rw [candList]
  exact congrArg _
    (joinMap_attach (fun q : String × FSTree => candList (pathAppend root q.1) q.2) _)

/-- `_scan_folder` applies the shared record/validate step to each walked
candidate in order. -/
theorem scanFolder_eq_filterMap_candList (cfg : ScanCfg) :
    ∀ t, ∀ root, scanFolder cfg root t =
      (candList root t).filterMap fun c => recordCandidate cfg c.1 c.2 := by
  refine FSTree.inductionOn fun dirs files ih root => ?_
  rw [scanFolder_node, candList_node]
  simp only [List.filterMap_append, List.filterMap_map, filterMap_joinMap]
  congr 1
  exact joinMap_congr fun p hp => ih p (List.mem_of_mem_filter hp) (pathAppend root p.1)

/-- The paths of the records produced from a candidate list form a
subsequence of the candidates' full paths (validation can only drop
candidates, never change a produced path). -/
theorem map_path_filterMap_sublist (cfg : ScanCfg) (l : List (String × String)) :
    ((l.filterMap fun c => recordCandidate cfg c.1 c.2).map PluginRecord.path).Sublist
      (l.map Prod.snd) := by
  induction l with
  | nil => simp
  | cons c l ih =>
    cases h : recordCandidate cfg c.1 c.2 with
    | none => simpa [h] using ih.trans (List.sublist_cons_self _ _)
    | some r =>
      have hpath : r.path = c.2 := by
        unfold recordCandidate at h
        split at h
        · cases hl : cfg.load c.2 <;> rw [hl] at h
          · cases h
          · injection h with h2
            subst h2
            rfl
        · injection h with h2
          subst h2
          rfl
      simp only [List.filterMap_cons, h, List.map_cons, hpath]
      exact List.Sublist.cons₂ c.2 ih

/-- With validation disabled every candidate is recorded unconditionally,
keeping its entry name and full path. -/
theorem filterMap_recordCandidate_of_not_validate (cfg : ScanCfg)
    (h : cfg.validate_plugins = false) (l : List (String × String)) :
    (l.filterMap fun c => recordCandidate cfg c.1 c.2) =
      l.map fun c => ⟨c.1, c.2⟩ := by
  induction l with
  | nil => simp
  | cons c l ih =>
    have hc : recordCandidate cfg c.1 c.2 = some ⟨c.1, c.2⟩ := by
      simp [recordCandidate, h]
    rw [List.filterMap_cons, hc, ih, List.map_cons]

/-- The full paths of the walked candidates are exactly the flattenings of
their relative component paths. -/
theorem candList_snd_eq_candPaths_flatten :
    ∀ t, ∀ root, (candList root t).map Prod.snd =
      (candPaths t).map (flattenPath root) := by
  refine FSTree.inductionOn fun dirs files ih root => ?_
  rw [candList_node, candPaths_node]
  simp only [List.map_append, List.map_map, map_joinMap]
  have h1 : (dirs.filter fun p => isBundleName p.1).map
        (Prod.snd ∘ fun p : String × FSTree => (p.1, pathAppend root p.1)) =
      (dirs.filter fun p => isBundleName p.1).map
        (flattenPath root ∘ fun p : String × FSTree => [p.1]) :=
    List.map_congr_left fun p _ => by simp [flattenPath, pathAppend, Function.comp]
  have h2 : (files.filter fun fn => isPluginFileName fn).map
        (Prod.snd ∘ fun fn : String => (fn, pathAppend root fn)) =
      (files.filter fun fn => isPluginFileName fn).map
        (flattenPath root ∘ fun fn : String => [fn]) :=
    List.map_congr_left fun fn _ => by simp [flattenPath, pathAppend, Function.comp]
  have h3 : joinMap (fun p : String × FSTree =>
        (candList (pathAppend root p.1) p.2).map Prod.snd)
      (dirs.filter fun p => !isBundleName p.1) =
      joinMap (fun p : String × FSTree =>
        (candPaths p.2).map (flattenPath root ∘ (p.1 :: ·)))
      (dirs.filter fun p => !isBundleName p.1) := by
    refine joinMap_congr fun p hp => ?_
    rw [ih p (List.mem_of_mem_filter hp) (pathAppend root p.1)]
    exact List.map_congr_left fun l _ => by simp [flattenPath, Function.comp]
  rw [h1, h2, h3]

/-!
## Injectivity of path flattening

Real filesystem entry names are nonempty and contain no `/`; under that
hypothesis two distinct component chains flatten to distinct full paths.
-/

theorem string_ext {s t : String} (h : s.data = t.data) : s = t := by
  cases s
  cases t
  cases h
  rfl

theorem pathAppend_data (r n : String) :
    (pathAppend r n).data = r.data ++ '/' :: n.data := by
  have : (pathAppend r n).data = r.data ++ "/".data ++ n.data := by
    simp [pathAppend, String.data_append]
  simpa using this

theorem append_cons_inj {c : Char} :
    ∀ (a₁ : List Char) {a₂ b₁ b₂ : List Char}, c ∉ a₁ → c ∉ a₂ →
      a₁ ++ c :: b₁ = a₂ ++ c :: b₂ → a₁ = a₂ ∧ b₁ = b₂ := by
  intro a₁
  induction a₁ with
  | nil =>
    intro a₂ b₁ b₂ _ h₂ heq
    cases a₂ with
    | nil => simpa using heq
    | cons x a₂ =>
      simp only [List.nil_append, List.cons_append, List.cons.injEq] at heq
      exact absurd (heq.1 ▸ List.mem_cons_self x a₂) (heq.1 ▸ h₂)
  | cons x a₁ ih =>
    intro a₂ b₁ b₂ h₁ h₂ heq
    cases a₂ with
    | nil =>
      simp only [List.nil_append, List.cons_append, List.cons.injEq] at heq
      exact absurd (heq.1 ▸ List.mem_cons_self x a₁) (fun hm => h₁ (heq.1 ▸ hm))
    | cons y a₂ =>
      simp only [List.cons_append, List.cons.injEq] at heq
      obtain ⟨rfl, heq⟩ := heq
      obtain ⟨ha, hb⟩ := ih (fun hm => h₁ (List.mem_cons_of_mem _ hm))
        (fun hm => h₂ (List.mem_cons_of_mem _ hm)) heq
      exact ⟨by rw [ha], hb⟩

theorem append_slash_inj {r₁ n₁ r₂ n₂ : List Char} (h₁ : '/' ∉ n₁) (h₂ : '/' ∉ n₂)
    (heq : r₁ ++ '/' :: n₁ = r₂ ++ '/' :: n₂) : r₁ = r₂ ∧ n₁ = n₂ := by
  have key : ∀ (r n : List Char), (r ++ '/' :: n).reverse = n.reverse ++ '/' :: r.reverse := by
    intro r n
    simp
  have hrev := congrArg List.reverse heq
  rw [key, key] at hrev
  obtain ⟨ha, hb⟩ := append_cons_inj n₁.reverse
    (fun hm => h₁ (List.mem_reverse.1 hm)) (fun hm => h₂ (List.mem_reverse.1 hm)) hrev
  exact ⟨List.reverse_injective hb, List.reverse_injective ha⟩

theorem pathAppend_inj {r₁ n₁ r₂ n₂ : String} (h₁ : '/' ∉ n₁.data) (h₂ : '/' ∉ n₂.data)
    (heq : pathAppend r₁ n₁ = pathAppend r₂ n₂) : r₁ = r₂ ∧ n₁ = n₂ := by
  have hd := congrArg String.data heq
  rw [pathAppend_data, pathAppend_data] at hd
  obtain ⟨ha, hb⟩ := append_slash_inj h₁ h₂ hd
  exact ⟨string_ext ha, string_ext hb⟩

theorem pathAppend_length (r n : String) :
    (pathAppend r n).length = r.length + 1 + n.length := by
  simp [pathAppend, String.length_append]
  decide

theorem flattenPath_concat (root : String) (l : List String) (n : String) :
    flattenPath root (l ++ [n]) = pathAppend (flattenPath root l) n := by
  simp [flattenPath]

theorem flattenPath_length_le (root : String) :
    ∀ l, root.length ≤ (flattenPath root l).length := by
  intro l
  induction l generalizing root with
  | nil => exact le_rfl
  | cons c l ih =>
    have h₁ : root.length ≤ (pathAppend root c).length := by
      rw [pathAppend_length]
      omega
    exact h₁.trans (ih (pathAppend root c))

theorem flattenPath_injOn (root : String) :
    ∀ l₁ l₂ : List String, (∀ c ∈ l₁, goodName c) → (∀ c ∈ l₂, goodName c) →
      flattenPath root l₁ = flattenPath root l₂ → l₁ = l₂ := by
  have hlen : ∀ (L : List String) (n : String), goodName n →
      root.length < (flattenPath root (L ++ [n])).length := by
    intro L n hn
    rw [flattenPath_concat, pathAppend_length]
    have h₁ := flattenPath_length_le root L
    have h₂ : n.length ≠ 0 := fun h0 => hn.1 (by
      cases n with
      | mk d =>
        cases d with
        | nil => rfl
        | cons c d => simp [String.length] at h0)
    omega
  intro l₁
  induction l₁ using List.reverseRecOn with
  | nil =>
    intro l₂ _ hg₂ heq
    rcases List.eq_nil_or_concat l₂ with rfl | ⟨L₂, n₂, rfl⟩
    · rfl
    · rw [List.concat_eq_append] at hg₂ heq ⊢
      have := hlen L₂ n₂ (hg₂ n₂ (by simp))
      rw [← heq] at this
      simp [flattenPath] at this
  | append_singleton l₁ n₁ ih =>
    intro l₂ hg₁ hg₂ heq
    rcases List.eq_nil_or_concat l₂ with rfl | ⟨L₂, n₂, rfl⟩
    · have := hlen l₁ n₁ (hg₁ n₁ (by simp))
      rw [heq] at this
      simp [flattenPath] at this
    · rw [List.concat_eq_append] at hg₂ heq ⊢
      rw [flattenPath_concat, flattenPath_concat] at heq
      obtain ⟨hf, hn⟩ := pathAppend_inj (hg₁ n₁ (by simp)).2 (hg₂ n₂ (by simp)).2 heq
      rw [ih L₂ (fun c hc => hg₁ c (List.mem_append_left _ hc))
        (fun c hc => hg₂ c (List.mem_append_left _ hc)) hf, hn]

/-!
## Structure of the candidate path list
-/

theorem treeWF_node_iff {dirs : List (String × FSTree)} {files : List String} :
    treeWF (FSTree.node dirs files) = true ↔
      (∀ n ∈ dirs.map Prod.fst ++ files, goodName n) ∧
        (dirs.map Prod.fst ++ files).Nodup ∧
        ∀ p ∈ dirs, treeWF p.2 = true := by
  rw [treeWF_node]
  simp [List.all_eq_true, and_assoc]
  constructor
  · rintro ⟨h1, h2, rest⟩
    exact ⟨fun n hn => hn.elim (fun ⟨x, hx⟩ => h1 n x hx) (fun hf => h2 n hf), rest⟩
  · rintro ⟨h1, rest⟩
    exact ⟨fun x x1 hx => h1 x (Or.inl ⟨x1, hx⟩), fun x hx => h1 x (Or.inr hx), rest⟩

theorem candPaths_ne_nil : ∀ t, ∀ l ∈ candPaths t, l ≠ [] := by
  refine FSTree.inductionOn fun dirs files ih l hl => ?_
  rw [candPaths_node] at hl
  rcases List.mem_append.1 hl with h | h
  · rcases List.mem_append.1 h with h | h
    · obtain ⟨p, _, rfl⟩ := List.mem_map.1 h
      simp
    · obtain ⟨fn, _, rfl⟩ := List.mem_map.1 h
      simp
  · obtain ⟨p, _, hlp⟩ := mem_joinMap.1 h
    obtain ⟨y, _, rfl⟩ := List.mem_map.1 hlp
    simp

theorem candPaths_good :
    ∀ t, treeWF t = true → ∀ l ∈ candPaths t, ∀ c ∈ l, goodName c := by
  refine FSTree.inductionOn fun dirs files ih hwf l hl c hc => ?_
  obtain ⟨hgood, _, hsub⟩ := treeWF_node_iff.1 hwf
  rw [candPaths_node] at hl
  rcases List.mem_append.1 hl with h | h
  · rcases List.mem_append.1 h with h | h
    · obtain ⟨p, hp, rfl⟩ := List.mem_map.1 h
      rw [List.mem_singleton.1 hc]
      exact hgood p.1 (List.mem_append_left _
        (List.mem_map_of_mem Prod.fst (List.mem_of_mem_filter hp)))
    · obtain ⟨fn, hfn, rfl⟩ := List.mem_map.1 h
      rw [List.mem_singleton.1 hc]
      exact hgood fn (List.mem_append_right _ (List.mem_of_mem_filter hfn))
  · obtain ⟨p, hp, hlp⟩ := mem_joinMap.1 h
    obtain ⟨y, hy, rfl⟩ := List.mem_map.1 hlp
    have hpd := List.mem_of_mem_filter hp
    rcases List.mem_cons.1 hc with rfl | hc
    · exact hgood p.1 (List.mem_append_left _ (List.mem_map_of_mem Prod.fst hpd))
    · exact ih p hpd (hsub p hpd) y hy c hc

/-- Every non-final component of a candidate path names a directory the
walk descended into, hence one that failed the bundle-suffix test. -/
theorem candPaths_dropLast_not_bundle :
    ∀ t, ∀ l ∈ candPaths t, ∀ c ∈ l.dropLast, isBundleName c = false := by
  refine FSTree.inductionOn fun dirs files ih l hl c hc => ?_
  rw [candPaths_node] at hl
  rcases List.mem_append.1 hl with h | h
  · rcases List.mem_append.1 h with h | h
    · obtain ⟨p, _, rfl⟩ := List.mem_map.1 h
      simp at hc
    · obtain ⟨fn, _, rfl⟩ := List.mem_map.1 h
      simp at hc
  · obtain ⟨p, hp, hlp⟩ := mem_joinMap.1 h
    obtain ⟨y, hy, rfl⟩ := List.mem_map.1 hlp
    have hpd := List.mem_of_mem_filter hp
    have hnb : isBundleName p.1 = false := by
      have := List.of_mem_filter hp
      simpa using this
    cases y with
    | nil => simp at hc
    | cons y₀ ys =>
      rw [List.dropLast_cons₂] at hc
      rcases List.mem_cons.1 hc with rfl | hc
      · exact hnb
      · exact ih p hpd (y₀ :: ys) hy c (by simpa using hc)

/-- The candidate paths of one walk are pairwise distinct as component
chains, provided entry names are unique within each directory. -/
theorem candPaths_nodup : ∀ t, treeWF t = true → (candPaths t).Nodup := by
  refine FSTree.inductionOn fun dirs files ih hwf => ?_
  obtain ⟨_, hnd, hsub⟩ := treeWF_node_iff.1 hwf
  have hndDirs : (dirs.map Prod.fst).Nodup := (List.nodup_append.1 hnd).1
  have hndFiles : files.Nodup := (List.nodup_append.1 hnd).2.1
  have hdisj : (dirs.map Prod.fst).Disjoint files := (List.nodup_append.1 hnd).2.2
  rw [candPaths_node]
  have hG1 : ((dirs.filter fun p => isBundleName p.1).map (fun p => [p.1])).Nodup := by
    have h₁ : ((dirs.filter fun p => isBundleName p.1).map Prod.fst).Nodup :=
      hndDirs.sublist ((List.filter_sublist dirs).map Prod.fst)
    have h₂ : (dirs.filter fun p => isBundleName p.1).map (fun p => [p.1]) =
        ((dirs.filter fun p => isBundleName p.1).map Prod.fst).map (fun n => [n]) := by
      rw [List.map_map]
      rfl
    rw [h₂]
    exact h₁.map (fun a b hab => by simpa using hab)
  have hG2 : ((files.filter fun fn => isPluginFileName fn).map (fun fn => [fn])).Nodup := by
    have h₁ : (files.filter fun fn => isPluginFileName fn).Nodup :=
      hndFiles.sublist (List.filter_sublist files)
    exact h₁.map (fun a b hab => by simpa using hab)
  have hG3 : (joinMap (fun p => (candPaths p.2).map (p.1 :: ·))
      (dirs.filter fun p => !isBundleName p.1)).Nodup := by
    have key : ∀ L : List (String × FSTree), (L.map Prod.fst).Nodup →
        (∀ p ∈ L, (candPaths p.2).Nodup) →
        (joinMap (fun p => (candPaths p.2).map (p.1 :: ·)) L).Nodup := by
      intro L
      induction L with
      | nil => intro _ _; simp
      | cons q L ihL =>
        intro hfst hsubN
        rw [joinMap_cons, List.nodup_append]
        refine ⟨(hsubN q (List.mem_cons_self q L)).map
            (fun a b hab => by simpa using hab),
          ihL (by simpa using (List.nodup_cons.1 hfst).2)
            (fun p hp => hsubN p (List.mem_cons_of_mem _ hp)), ?_⟩
        intro x hx hx'
        obtain ⟨y, _, rfl⟩ := List.mem_map.1 hx
        obtain ⟨p, hp, hxp⟩ := mem_joinMap.1 hx'
        obtain ⟨z, _, hz⟩ := List.mem_map.1 hxp
        have hq : q.1 = p.1 := by
          have := hz.symm
          simp at this
          exact this.1
        exact (List.nodup_cons.1 hfst).1
          (hq ▸ List.mem_map_of_mem Prod.fst hp)
    refine key _ (hndDirs.sublist ((List.filter_sublist dirs).map Prod.fst))
      fun p hp => ih p (List.mem_of_mem_filter hp) (hsub p (List.mem_of_mem_filter hp))
  rw [List.nodup_append, List.nodup_append]
  refine ⟨⟨hG1, hG2, ?_⟩, hG3, ?_⟩
  · intro x hx hx'
    obtain ⟨p, hp, rfl⟩ := List.mem_map.1 hx
    obtain ⟨fn, hfn, hx2⟩ := List.mem_map.1 hx'
    have : p.1 = fn := by simpa using hx2.symm
    exact hdisj (List.mem_map_of_mem Prod.fst (List.mem_of_mem_filter hp))
      (this ▸ List.mem_of_mem_filter hfn)
  · intro x hx hx'
    obtain ⟨p, hp, hxp⟩ := mem_joinMap.1 hx'
    obtain ⟨y, hy, rfl⟩ := List.mem_map.1 hxp
    have hylen : y ≠ [] := candPaths_ne_nil p.2 y hy
    rcases List.mem_append.1 hx with h | h
    · obtain ⟨q, _, hq⟩ := List.mem_map.1 h
      injection hq with h1 h2
      exact hylen h2.symm
    · obtain ⟨fn, _, hq⟩ := List.mem_map.1 h
      injection hq with h1 h2
      exact hylen h2.symm

/-!
## Assembled facts about one walk
-/

/-- The record paths of one walk form a subsequence of the flattened
candidate paths. -/
theorem scanFolder_map_path_sublist (cfg : ScanCfg) (root : String) (t : FSTree) :
    ((scanFolder cfg root t).map PluginRecord.path).Sublist
      ((candPaths t).map (flattenPath root)) := by
  rw [scanFolder_eq_filterMap_candList, ← candList_snd_eq_candPaths_flatten]
  exact map_path_filterMap_sublist cfg (candList root t)

/-- With validation disabled the record paths of one walk are exactly the
flattened candidate paths, in walk order. -/
theorem scanFolder_map_path_eq (cfg : ScanCfg) (h : cfg.validate_plugins = false)
    (root : String) (t : FSTree) :
    (scanFolder cfg root t).map PluginRecord.path =
      (candPaths t).map (flattenPath root) := by
  rw [scanFolder_eq_filterMap_candList,
    filterMap_recordCandidate_of_not_validate cfg h,
    ← candList_snd_eq_candPaths_flatten, List.map_map]
  rfl

/-!
## Lock-usage model (`threading.Lock` discipline of `PluginScanner`)

Each controller method is abstracted to the ordered sequence of events it
performs on the shared state: acquisitions/releases of `self._lock`, reads
and writes of `self._cache` / `self._cache_timestamp`, and the per-root
walks.  The sequences are transcribed line by line from
`plugin_helpers.py`; whether the lock is held at an event is then a
property of the trace.
-/

inductive LockEv where
  | acquire
  | release
  | readCache
  | writeCache
  | readTimestamp
  | writeTimestamp
  | walkRoot (root : String)
deriving DecidableEq, Repr

/-- `_rescan` (`plugin_helpers.py:107-118`): walk every root (lines
110-115, outside the lock), then under `with self._lock:` write
`self._cache` and `self._cache_timestamp` (lines 116-118). -/
def rescanTrace (roots : List String) : List LockEv :=
  roots.map LockEv.walkRoot ++
    [LockEv.acquire, LockEv.writeCache, LockEv.writeTimestamp, LockEv.release]

/-- `ensure_cache` (`plugin_helpers.py:120-125`): evaluate
`(now - self._cache_timestamp) > self.cache_ttl_seconds or not self._cache`
with Python's short-circuit (`self._cache` is only read when the first
disjunct is false), then `_rescan` when the condition held.  `stale` is the
value of the first disjunct, `empty` of the second. -/
def ensureCacheTrace (roots : List String) (stale empty : Bool) : List LockEv :=
  LockEv.readTimestamp ::
    (if stale then rescanTrace roots
     else LockEv.readCache :: (if empty then rescanTrace roots else []))

/-- `get_installed_plugins` (`plugin_helpers.py:127-134`): `ensure_cache`,
then `with self._lock: return list(self._cache)`. -/
def getInstalledTrace (roots : List String) (stale empty : Bool) : List LockEv :=
  ensureCacheTrace roots stale empty ++
    [LockEv.acquire, LockEv.readCache, LockEv.release]

/-- `force_scan` (`plugin_helpers.py:136-140`): `_rescan`, then
`with self._lock: return list(self._cache)`. -/
def forceScanTrace (roots : List String) : List LockEv :=
  rescanTrace roots ++ [LockEv.acquire, LockEv.readCache, LockEv.release]

/-- Annotate every event of a trace with whether the lock is held when it
executes (`held` is the state on entry). -/
def annotate (held : Bool) : List LockEv → List (LockEv × Bool)
  | [] => []
  | LockEv.acquire :: r => (LockEv.acquire, true) :: annotate true r
  | LockEv.release :: r => (LockEv.release, false) :: annotate false r
  | e :: r => (e, held) :: annotate held r

/-- Events that touch the shared cache state. -/
def isCacheAccess : LockEv → Bool
  | LockEv.readCache | LockEv.writeCache
  | LockEv.readTimestamp | LockEv.writeTimestamp => true
  | _ => false

/-- Events that mutate the shared cache state. -/
def isCacheWrite : LockEv → Bool
  | LockEv.writeCache | LockEv.writeTimestamp => true
  | _ => false

def isWalkEv : LockEv → Bool
  | LockEv.walkRoot _ => true
  | _ => false

/-- "Every read and write of the cached inventory and its timestamp happens
while holding the lock", as a decidable check on a trace. -/
def allAccessesLocked (tr : List LockEv) : Bool :=
  (annotate false tr).all fun pr => !isCacheAccess pr.1 || pr.2

/-- "Every write of the cached inventory and its timestamp happens while
holding the lock." -/
def allWritesLocked (tr : List LockEv) : Bool :=
  (annotate false tr).all fun pr => !isCacheWrite pr.1 || pr.2

/-- "The walk runs outside the lock." -/
def walksUnlocked (tr : List LockEv) : Bool :=
  (annotate false tr).all fun pr => !isWalkEv pr.1 || !pr.2

theorem annotate_walkRoot_append (held : Bool) (roots : List String) (rest : List LockEv) :
    annotate held (roots.map LockEv.walkRoot ++ rest) =
      (roots.map LockEv.walkRoot).map (fun e => (e, held)) ++ annotate held rest := by
  induction roots with
  | nil => simp
  | cons r roots ih => simpa [annotate] using ih

/-!
## Additional controller lemmas
-/

theorem ensureCache_preserves_config (fs : RootFS) (now scanTime : ℚ)
    (s : ScannerState) :
    (s.ensureCache fs now scanTime).cache_ttl_seconds = s.cache_ttl_seconds ∧
      (s.ensureCache fs now scanTime).plugin_paths = s.plugin_paths := by
  unfold ScannerState.ensureCache ScannerState.rescan
  split <;> exact ⟨rfl, rfl⟩

theorem rescanCombined_cons (fs : RootFS) (cfg : ScanCfg) (r : String)
    (roots : List String) :
    rescanCombined fs cfg (r :: roots) =
      (match fs r with
        | none => []
        | some t => scanFolder cfg r t) ++ rescanCombined fs cfg roots := rfl

theorem collectFx_some_length_le (normpath : String → String) (l : ℤ) :
    ∀ (raw : List PluginRecord) (acc : List FxMeta), (acc.length : ℤ) < l →
      ((collectFx normpath (some l) acc raw).length : ℤ) ≤ l := by
  intro raw
  induction raw with
  | nil =>
    intro acc h
    exact le_of_lt h
  | cons e rest ih =>
    intro acc h
    rw [collectFx]
    by_cases hge : (((acc ++ [metaOf normpath e]).length : ℤ)) ≥ l
    · rw [if_pos hge]
      simp only [List.length_append, List.length_cons, List.length_nil]
      push_cast
      omega
    · rw [if_neg hge]
      refine ih _ ?_
      simp only [List.length_append, List.length_cons, List.length_nil] at hge ⊢
      push_cast at hge ⊢
      omega

theorem collectFx_none (normpath : String → String) :
    ∀ (raw : List PluginRecord) (acc : List FxMeta),
      collectFx normpath none acc raw = acc ++ raw.map (metaOf normpath) := by
  intro raw
  induction raw with
  | nil => intro acc; simp [collectFx]
  | cons e rest ih => intro acc; simp [collectFx, ih]

theorem pyEndsWith_iff {s suf : String} : pyEndsWith s suf = true ↔ suf.data <:+ s.data := by
  unfold pyEndsWith
  exact List.isSuffixOf_iff_suffix

theorem pyEndsWith_false_of_nosuffix {s a b : String}
    (h : pyEndsWith s a = true)
    (hab : ¬(a.data <:+ b.data)) (hba : ¬(b.data <:+ a.data)) :
    pyEndsWith s b = false := by
  rw [Bool.eq_false_iff]
  intro hb
  rcases List.suffix_or_suffix_of_suffix (pyEndsWith_iff.1 h) (pyEndsWith_iff.1 hb) with
    hs | hs
  · exact hab hs
  · exact hba hs

/-!
## Concrete fixtures used by the claim theorems
-/

/-- Fast-path configuration: `validate_plugins = False` (the default). -/
def cfgFast : ScanCfg := { validate_plugins := false, load := fun _ => none }

/-- The `/plugins` tree of the spec scenarios: bundle directory
`SynthA.vst3/` and plain file `EffectB.dylib`. -/
def tree6 : FSTree := FSTree.node [("SynthA.vst3", FSTree.node [] [])] ["EffectB.dylib"]

def fs6 : RootFS := fun r => if r = "/plugins" then some tree6 else none

def s6 : ScannerState := ScannerState.init ["/plugins"] 300 cfgFast

/-!
## Claim theorems
-/

/-- C1: `get_installed_plugins` rescans (walking every root in order,
concatenating, and replacing cache and timestamp) exactly when
`now - cacheTimestamp > ttl` or the cache is empty, and otherwise returns
the cached snapshot unchanged; hence two calls within the TTL window with a
non-empty cache and no intervening `force_scan` return identical
snapshots. -/
theorem claim_C1_ttl_gate :
    (∀ (fs : RootFS) (now scanTime : ℚ) (s : ScannerState),
        (now - s.cache_timestamp > s.cache_ttl_seconds ∨ s.cache = []) →
        s.getInstalledPlugins fs now scanTime =
          (rescanCombined fs s.cfg s.plugin_paths, s.rescan fs scanTime)) ∧
      (∀ (fs : RootFS) (now scanTime : ℚ) (s : ScannerState),
        ¬(now - s.cache_timestamp > s.cache_ttl_seconds ∨ s.cache = []) →
        s.getInstalledPlugins fs now scanTime = (s.cache, s)) ∧
      (∀ (fs : RootFS) (t₁ st₁ t₂ st₂ : ℚ) (s : ScannerState),
        ¬(t₂ - (s.getInstalledPlugins fs t₁ st₁).2.cache_timestamp >
            s.cache_ttl_seconds) →
        (s.getInstalledPlugins fs t₁ st₁).2.cache ≠ [] →
        ((s.getInstalledPlugins fs t₁ st₁).2.getInstalledPlugins fs t₂ st₂).1 =
          (s.getInstalledPlugins fs t₁ st₁).1) := by
  refine ⟨fun fs now scanTime s h => ?_, fun fs now scanTime s h => ?_,
    fun fs t₁ st₁ t₂ st₂ s h₁ h₂ => ?_⟩
  · unfold ScannerState.getInstalledPlugins ScannerState.ensureCache
    rw [if_pos h]
    rfl
  · unfold ScannerState.getInstalledPlugins ScannerState.ensureCache
    rw [if_neg h]
  · have h2nd : (s.getInstalledPlugins fs t₁ st₁).2 = s.ensureCache fs t₁ st₁ := rfl
    have h1st : (s.getInstalledPlugins fs t₁ st₁).1 =
      (s.ensureCache fs t₁ st₁).cache := rfl
    rw [h2nd] at h₁ h₂
    rw [h2nd, h1st]
    have httl := (ensureCache_preserves_config fs t₁ st₁ s).1
    have hneg : ¬(t₂ - (s.ensureCache fs t₁ st₁).cache_timestamp >
        (s.ensureCache fs t₁ st₁).cache_ttl_seconds ∨
        (s.ensureCache fs t₁ st₁).cache = []) := by
      rintro (hgt | hempty)
      · rw [httl] at hgt
        exact h₁ hgt
      · exact h₂ hempty
    show ((s.ensureCache fs t₁ st₁).ensureCache fs t₂ st₂).cache =
      (s.ensureCache fs t₁ st₁).cache
    conv_lhs => rw [ScannerState.ensureCache]
    rw [if_neg hneg]

/-- C1 witness: on the freshly constructed scanner (empty cache) the first
call rescans. -/
theorem claim_C1_ttl_gate_witness :
    s6.getInstalledPlugins fs6 301 301 =
      (rescanCombined fs6 s6.cfg s6.plugin_paths, s6.rescan fs6 301) :=
  claim_C1_ttl_gate.1 fs6 301 301 s6 (Or.inr rfl)

/-- C5: a root whose scan raises is skipped — the remaining roots still
contribute, in order; rescans of all-failing root lists yield the valid
empty inventory; and `force_scan` / `get_installed_plugins` always return a
record list (cached copy or fresh scan), never an error. -/
theorem claim_C5_root_failure_isolated :
    (∀ (fs : RootFS) (cfg : ScanCfg) (roots₁ roots₂ : List String) (bad : String),
        fs bad = none →
        rescanCombined fs cfg (roots₁ ++ bad :: roots₂) =
          rescanCombined fs cfg roots₁ ++ rescanCombined fs cfg roots₂) ∧
      (∀ (fs : RootFS) (cfg : ScanCfg) (roots : List String),
        (∀ r ∈ roots, fs r = none) → rescanCombined fs cfg roots = []) ∧
      (∀ (fs : RootFS) (scanTime : ℚ) (s : ScannerState),
        (s.forceScan fs scanTime).1 = rescanCombined fs s.cfg s.plugin_paths) ∧
      (∀ (fs : RootFS) (now scanTime : ℚ) (s : ScannerState),
        (s.getInstalledPlugins fs now scanTime).1 = s.cache ∨
          (s.getInstalledPlugins fs now scanTime).1 =
            rescanCombined fs s.cfg s.plugin_paths) := by
  refine ⟨fun fs cfg roots₁ roots₂ bad hbad => ?_, fun fs cfg roots hall => ?_,
    fun fs scanTime s => rfl, fun fs now scanTime s => ?_⟩
  · induction roots₁ with
    | nil => simp [rescanCombined_cons, hbad, rescanCombined]
    | cons r roots ih =>
      rw [List.cons_append, rescanCombined_cons, rescanCombined_cons, ih,
        List.append_assoc]
  · induction roots with
    | nil => rfl
    | cons r roots ih =>
      rw [rescanCombined_cons, hall r (List.mem_cons_self r roots),
        ih fun x hx => hall x (List.mem_cons_of_mem r hx)]
      rfl
  · unfold ScannerState.getInstalledPlugins ScannerState.ensureCache
    split
    · right
      rfl
    · left
      rfl

/-- C5 witness: a raising middle root between two good roots. -/
theorem claim_C5_root_failure_isolated_witness :
    rescanCombined fs6 cfgFast (["/plugins"] ++ "/bad" :: ["/plugins"]) =
      rescanCombined fs6 cfgFast ["/plugins"] ++
        rescanCombined fs6 cfgFast ["/plugins"] :=
  claim_C5_root_failure_isolated.1 fs6 cfgFast ["/plugins"] ["/plugins"] "/bad"
    (by simp [fs6])

/-- C6: scanning `/plugins` containing bundle `SynthA.vst3/` and file
`EffectB.dylib` with validation disabled yields exactly the two records
`{name: "SynthA.vst3", path: "/plugins/SynthA.vst3"}` and
`{name: "EffectB.dylib", path: "/plugins/EffectB.dylib"}`. -/
theorem claim_C6_two_record_scenario :
    scanFolder cfgFast "/plugins" tree6 =
        [⟨"SynthA.vst3", "/plugins/SynthA.vst3"⟩,
          ⟨"EffectB.dylib", "/plugins/EffectB.dylib"⟩] ∧
      (s6.forceScan fs6 0).1 =
        [⟨"SynthA.vst3", "/plugins/SynthA.vst3"⟩,
          ⟨"EffectB.dylib", "/plugins/EffectB.dylib"⟩] := by
  have h1 : isBundleName "SynthA.vst3" = true := by decide
  have h2 : isPluginFileName "EffectB.dylib" = true := by decide
  constructor
  · simp [scanFolder_node, tree6, cfgFast, recordCandidate, pathAppend, h1, h2]
  · show rescanCombined fs6 s6.cfg s6.plugin_paths = _
    simp [rescanCombined, s6, ScannerState.init, fs6, scanFolder_node, tree6, cfgFast,
      recordCandidate, pathAppend, h1, h2]

/-- Cached-but-fresh scanner state for the `list_installed_fx` limit
claims: one cached record, timestamp equal to the call instant. -/
def s7 : ScannerState :=
  { plugin_paths := ["/p"], cache_ttl_seconds := 300, cfg := cfgFast,
    cache_timestamp := 0, cache := [⟨"A.vst3", "/p/A.vst3"⟩] }

def fsNone : RootFS := fun _ => none

/-- C7 counterexample: with `limit = 0` and a non-empty cache the check
`len(plugins) >= limit` runs only after the first append, so one record is
returned — more than `limit`. -/
theorem claim_C7_limit_cex :
    ¬(((list_installed_fx id fsNone false (some 0) 0 0 s7).1.plugins.length : ℤ) ≤ 0) := by
  have hres : (list_installed_fx id fsNone false (some 0) 0 0 s7).1.plugins.length = 1 := by
    have hcond : ¬((0 : ℚ) - s7.cache_timestamp > s7.cache_ttl_seconds ∨ s7.cache = []) := by
      rintro (hgt | hempty)
      · norm_num [s7] at hgt
      · simp [s7] at hempty
    have hraw : (s7.getInstalledPlugins fsNone 0 0).1 = s7.cache := by
      unfold ScannerState.getInstalledPlugins ScannerState.ensureCache
      rw [if_neg hcond]
    have hplug : (list_installed_fx id fsNone false (some 0) 0 0 s7).1.plugins =
        collectFx id (some 0) [] (s7.getInstalledPlugins fsNone 0 0).1 := rfl
    rw [hplug, hraw]
    simp [s7, collectFx]
  omega

/-- C7 (amended): with a *positive* limit the returned list has at most
`limit` records; the returned `count` always equals the length of the
returned list; and with no limit every raw record is decorated and
returned. -/
theorem claim_C7_limit_truncation :
    (∀ (normpath : String → String) (fs : RootFS) (refresh : Bool) (l : ℤ)
        (now scanTime : ℚ) (s : ScannerState), 1 ≤ l →
        ((list_installed_fx normpath fs refresh (some l) now scanTime s).1.plugins.length : ℤ) ≤ l) ∧
      (∀ (normpath : String → String) (fs : RootFS) (refresh : Bool)
          (lim : Option ℤ) (now scanTime : ℚ) (s : ScannerState),
        (list_installed_fx normpath fs refresh lim now scanTime s).1.count =
          (list_installed_fx normpath fs refresh lim now scanTime s).1.plugins.length) ∧
      (∀ (normpath : String → String) (fs : RootFS) (refresh : Bool)
          (now scanTime : ℚ) (s : ScannerState),
        (list_installed_fx normpath fs refresh none now scanTime s).1.plugins =
          ((if refresh then s.forceScan fs scanTime
            else s.getInstalledPlugins fs now scanTime).1).map (metaOf normpath)) := by
  refine ⟨fun normpath fs refresh l now scanTime s hl => ?_,
    fun normpath fs refresh lim now scanTime s => rfl,
    fun normpath fs refresh now scanTime s => ?_⟩
  · refine collectFx_some_length_le normpath l _ [] ?_
    simp only [List.length_nil, Nat.cast_zero]
    omega
  · show collectFx normpath none [] _ = _
    rw [collectFx_none]
    simp

/-- C7 witness: the truncation bound at `limit = 1` on the one-record
cache. -/
theorem claim_C7_limit_truncation_witness :
    ((list_installed_fx id fsNone false (some 1) 0 0 s7).1.plugins.length : ℤ) ≤ 1 :=
  claim_C7_limit_truncation.1 id fsNone false 1 0 0 s7 (by norm_num)

/-- C9: the suffix tests lowercase the entry name first, so two names with
the same lowercasing are matched identically; `FOO.VST3` and `Bar.DyLib`
are matched, and a tree containing them is recorded exactly like its
lowercase-suffixed counterpart, names preserved. -/
theorem claim_C9_case_insensitive :
    (∀ a b : String, pyLower a = pyLower b →
        isBundleName a = isBundleName b ∧ isPluginFileName a = isPluginFileName b) ∧
      isBundleName "FOO.VST3" = true ∧
      isPluginFileName "Bar.DyLib" = true ∧
      scanFolder cfgFast "/p" (FSTree.node [("FOO.VST3", FSTree.node [] [])] ["Bar.DyLib"]) =
        [⟨"FOO.VST3", "/p/FOO.VST3"⟩, ⟨"Bar.DyLib", "/p/Bar.DyLib"⟩] := by
  refine ⟨fun a b h => ?_, by decide, by decide, ?_⟩
  · unfold isBundleName isPluginFileName
    rw [h]
    exact ⟨rfl, rfl⟩
  · have h1 : isBundleName "FOO.VST3" = true := by decide
    have h2 : isPluginFileName "Bar.DyLib" = true := by decide
    simp [scanFolder_node, cfgFast, recordCandidate, pathAppend, h1, h2]

/-- C9 witness: the congruence applied to `FOO.VST3` / `foo.vst3` and
`Bar.DyLib` / `bar.dylib`. -/
theorem claim_C9_case_insensitive_witness :
    isBundleName "FOO.VST3" = isBundleName "foo.vst3" ∧
      isPluginFileName "Bar.DyLib" = isPluginFileName "bar.dylib" :=
  ⟨(claim_C9_case_insensitive.1 "FOO.VST3" "foo.vst3" (by decide)).1,
    (claim_C9_case_insensitive.1 "Bar.DyLib" "bar.dylib" (by decide)).2⟩

/-- C10: a name ending in `.dll` (after lowercasing) passes neither the
file-suffix test nor the bundle-suffix test, so such an entry is never
recorded; yet `type_from_path` maps any `.dll` path to `"VST"`. -/
theorem claim_C10_dll_never_recorded :
    (∀ name : String, pyEndsWith (pyLower name) ".dll" = true →
        isPluginFileName name = false ∧ isBundleName name = false) ∧
      (∀ path : String, pyEndsWith (pyLower path) ".dll" = true →
        type_from_path path = "VST") ∧
      scanFolder cfgFast "/p" (FSTree.node [] ["plugin.dll"]) = [] := by
  have key : ∀ s : String, pyEndsWith s ".dll" = true →
      pyEndsWith s ".vst3" = false ∧ pyEndsWith s ".vst" = false ∧
        pyEndsWith s ".component" = false ∧ pyEndsWith s ".au" = false ∧
        pyEndsWith s ".so" = false ∧ pyEndsWith s ".dylib" = false := by
    intro s h
    exact ⟨pyEndsWith_false_of_nosuffix h (by decide) (by decide),
      pyEndsWith_false_of_nosuffix h (by decide) (by decide),
      pyEndsWith_false_of_nosuffix h (by decide) (by decide),
      pyEndsWith_false_of_nosuffix h (by decide) (by decide),
      pyEndsWith_false_of_nosuffix h (by decide) (by decide),
      pyEndsWith_false_of_nosuffix h (by decide) (by decide)⟩
  refine ⟨fun name h => ?_, fun path h => ?_, ?_⟩
  · obtain ⟨h1, h2, h3, h4, h5, h6⟩ := key (pyLower name) h
    exact ⟨by simp [isPluginFileName, h1, h2, h3, h4, h5, h6],
      by simp [isBundleName, h1, h2, h3]⟩
  · obtain ⟨h1, h2, h3, h4, h5, h6⟩ := key (pyLower path) h
    simp [type_from_path, h1, h2, h3, h4, h]
  · have h1 : isPluginFileName "plugin.dll" = false := by decide
    simp [scanFolder_node, h1]

/-- C10 witness: the concrete name `Plugin.DLL`. -/
theorem claim_C10_dll_never_recorded_witness :
    isPluginFileName "Plugin.DLL" = false ∧ isBundleName "Plugin.DLL" = false ∧
      type_from_path "/x/Plugin.DLL" = "VST" :=
  ⟨(claim_C10_dll_never_recorded.1 "Plugin.DLL" (by decide)).1,
    (claim_C10_dll_never_recorded.1 "Plugin.DLL" (by decide)).2,
    claim_C10_dll_never_recorded.2.1 "/x/Plugin.DLL" (by decide)⟩

/-- Validation oracle of the spec scenario: loading succeeds for
`/plugins/SynthA.vst3` with display name `"Synth A"` and fails for
everything else (in particular `/plugins/EffectB.dylib`). -/
def cfg4 : ScanCfg :=
  { validate_plugins := true,
    load := fun p => if p = "/plugins/SynthA.vst3" then some (some "Synth A") else none }

/-- C4: with validation enabled a candidate is recorded iff its load
succeeds, carrying the loaded display name when one is exposed and the
entry's base name otherwise, and a failure skips only that candidate; on
the scenario tree the inventory is exactly
`[{name: "Synth A", path: "/plugins/SynthA.vst3"}]`. -/
theorem claim_C4_validation_filter :
    (∀ (cfg : ScanCfg) (root : String) (t : FSTree), cfg.validate_plugins = true →
        scanFolder cfg root t = (candList root t).filterMap fun c =>
          match cfg.load c.2 with
          | some optName => some ⟨optName.getD c.1, c.2⟩
          | none => none) ∧
      scanFolder cfg4 "/plugins" tree6 = [⟨"Synth A", "/plugins/SynthA.vst3"⟩] := by
  constructor
  · intro cfg root t hv
    rw [scanFolder_eq_filterMap_candList]
    exact congrArg (fun f => List.filterMap f (candList root t))
      (funext fun c => by simp [recordCandidate, hv])
  · have hb : isBundleName "SynthA.vst3" = true := by decide
    have hf : isPluginFileName "EffectB.dylib" = true := by decide
    simp [scanFolder_node, tree6, cfg4, recordCandidate, pathAppend, hb, hf]

/-- C4 witness: the validation characterization instantiated on the
scenario configuration and tree. -/
theorem claim_C4_validation_filter_witness :
    scanFolder cfg4 "/plugins" tree6 =
      (candList "/plugins" tree6).filterMap fun c =>
        match cfg4.load c.2 with
        | some optName => some (⟨optName.getD c.1, c.2⟩ : PluginRecord)
        | none => none :=
  claim_C4_validation_filter.1 cfg4 "/plugins" tree6 rfl

/-- The duplicated-roots configuration refuting C2 as stated. -/
def fsDup : RootFS :=
  fun r => if r = "/p" then some (FSTree.node [("A.vst3", FSTree.node [] [])] []) else none

/-- C2 counterexample: `PluginScanner(plugin_paths=["/p", "/p"])` walks the
same root twice, so one full rescan over all roots repeats every path —
`path` is *not* unique in the concatenated snapshot. -/
theorem claim_C2_path_unique_cex :
    ¬((rescanCombined fsDup cfgFast ["/p", "/p"]).map PluginRecord.path).Nodup := by
  have hb : isBundleName "A.vst3" = true := by decide
  have heval : rescanCombined fsDup cfgFast ["/p", "/p"] =
      [⟨"A.vst3", "/p/A.vst3"⟩, ⟨"A.vst3", "/p/A.vst3"⟩] := by
    simp [rescanCombined, fsDup, scanFolder_node, cfgFast, recordCandidate,
      pathAppend, hb]
  rw [heval]
  decide

/-- C2 (amended): within the walk of a *single* root over a well-formed
tree (nonempty slash-free entry names, unique within each directory)
record paths are pairwise distinct, and with validation disabled the
record paths are exactly the flattened candidate paths — every
suffix-matching entry the walk reaches appears exactly once. -/
theorem claim_C2_single_root_path_unique :
    ∀ (cfg : ScanCfg) (root : String) (t : FSTree), treeWF t = true →
      ((scanFolder cfg root t).map PluginRecord.path).Nodup ∧
        (cfg.validate_plugins = false →
          (scanFolder cfg root t).map PluginRecord.path =
            (candPaths t).map (flattenPath root)) ∧
        (cfg.validate_plugins = false → ∀ l ∈ candPaths t,
          ((scanFolder cfg root t).map PluginRecord.path).count (flattenPath root l) = 1) := by
  intro cfg root t hwf
  have hnodupPaths : ((candPaths t).map (flattenPath root)).Nodup := by
    refine (candPaths_nodup t hwf).map_on ?_
    intro x hx y hy hxy
    exact flattenPath_injOn root x y (candPaths_good t hwf x hx)
      (candPaths_good t hwf y hy) hxy
  refine ⟨hnodupPaths.sublist (scanFolder_map_path_sublist cfg root t),
    fun hv => scanFolder_map_path_eq cfg hv root t, fun hv l hl => ?_⟩
  rw [scanFolder_map_path_eq cfg hv root t]
  exact List.count_eq_one_of_mem hnodupPaths (List.mem_map_of_mem _ hl)

/-- C2 witness: uniqueness on the two-record scenario tree. -/
theorem claim_C2_single_root_path_unique_witness :
    treeWF tree6 = true ∧
      ((scanFolder cfgFast "/plugins" tree6).map PluginRecord.path).Nodup := by
  have hwf : treeWF tree6 = true := by
    rw [tree6, treeWF_node_iff]
    refine ⟨?_, by decide, ?_⟩
    · intro n hn
      simp at hn
      rcases hn with rfl | rfl <;> exact ⟨by decide, by decide⟩
    · intro p hp
      simp at hp
      rw [hp, treeWF_node_iff]
      exact ⟨by simp, by simp, by simp⟩
  exact ⟨hwf, (claim_C2_single_root_path_unique cfgFast "/plugins" tree6 hwf).1⟩

/-- A bundle directory with plugin-suffixed content *inside* it. -/
def treeInner : FSTree :=
  FSTree.node
    [("Outer.vst3", FSTree.node [("Nested.vst3", FSTree.node [] [])] ["inner.vst3"])] []

/-- C3: every record of a walk arises from a candidate chain whose
non-final components all failed the bundle-suffix test — the walk never
descends into a recognized bundle directory, so no record path lies
strictly inside one; concretely, a bundle containing plugin-suffixed
entries yields only its own record. -/
theorem claim_C3_no_descent_into_bundles :
    (∀ (cfg : ScanCfg) (root : String) (t : FSTree) (r : PluginRecord),
        r ∈ scanFolder cfg root t →
        ∃ l ∈ candPaths t, r.path = flattenPath root l ∧
          ∀ c ∈ l.dropLast, isBundleName c = false) ∧
      scanFolder cfgFast "/p" treeInner = [⟨"Outer.vst3", "/p/Outer.vst3"⟩] := by
  constructor
  · intro cfg root t r hr
    have hmem : r.path ∈ (candPaths t).map (flattenPath root) :=
      (scanFolder_map_path_sublist cfg root t).subset
        (List.mem_map_of_mem PluginRecord.path hr)
    obtain ⟨l, hl, heq⟩ := List.mem_map.1 hmem
    exact ⟨l, hl, heq.symm, candPaths_dropLast_not_bundle t l hl⟩
  · have hb : isBundleName "Outer.vst3" = true := by decide
    simp [scanFolder_node, treeInner, cfgFast, recordCandidate, pathAppend, hb]

/-- C3 witness: the sole record of the nested-bundle tree sits at a chain
with no bundle-suffixed proper ancestor. -/
theorem claim_C3_no_descent_into_bundles_witness :
    ∃ l ∈ candPaths treeInner,
      ("/p/Outer.vst3" : String) = flattenPath "/p" l ∧
        ∀ c ∈ l.dropLast, isBundleName c = false :=
  claim_C3_no_descent_into_bundles.1 cfgFast "/p" treeInner
    ⟨"Outer.vst3", "/p/Outer.vst3"⟩
    (by
      have hb : isBundleName "Outer.vst3" = true := by decide
      simp [scanFolder_node, treeInner, cfgFast, recordCandidate, pathAppend, hb])

/-- C8 counterexample: in `get_installed_plugins` the staleness check of
`ensure_cache` reads `self._cache_timestamp` (and, when not stale,
`self._cache`) *without* holding `self._lock` — so not every read of the
shared state happens under the lock. -/
theorem claim_C8_unlocked_read_cex :
    allAccessesLocked (getInstalledTrace ["/plugins"] true true) = false := by
  decide

/-- C8 (amended): every *write* of the cached inventory and timestamp
happens while holding the lock and the two are written together inside one
`acquire … release` critical section; the expensive per-root walk runs
entirely outside the lock; and the returned snapshot copy is read under
the lock.  (The staleness check itself reads timestamp and cache
emptiness without the lock, refuting the all-reads-locked part.) -/
theorem claim_C8_lock_discipline :
    (∀ (roots : List String) (stale empty : Bool),
        allWritesLocked (getInstalledTrace roots stale empty) = true ∧
          walksUnlocked (getInstalledTrace roots stale empty) = true ∧
          ((stale || empty) = true →
            [LockEv.acquire, LockEv.writeCache, LockEv.writeTimestamp,
              LockEv.release] <:+: getInstalledTrace roots stale empty) ∧
          [LockEv.acquire, LockEv.readCache, LockEv.release]
            <:+ getInstalledTrace roots stale empty) ∧
      (∀ roots : List String,
        allWritesLocked (forceScanTrace roots) = true ∧
          walksUnlocked (forceScanTrace roots) = true ∧
          [LockEv.acquire, LockEv.writeCache, LockEv.writeTimestamp,
            LockEv.release] <:+: forceScanTrace roots) := by
  have hwalkmap : ∀ (P : LockEv × Bool → Bool) (roots : List String)
      (rest : List LockEv), (∀ r : String, P (LockEv.walkRoot r, false) = true) →
      ((annotate false (roots.map LockEv.walkRoot ++ rest)).all P) =
        ((annotate false rest).all P) := by
    intro P roots rest hP
    rw [annotate_walkRoot_append, List.all_append]
    have : ((roots.map LockEv.walkRoot).map (fun e => (e, false))).all P = true := by
      rw [List.all_eq_true]
      intro pr hpr
      obtain ⟨e, he, rfl⟩ := List.mem_map.1 hpr
      obtain ⟨r, _, rfl⟩ := List.mem_map.1 he
      exact hP r
    rw [this, Bool.true_and]
  constructor
  · intro roots stale empty
    refine ⟨?_, ?_, ?_, ?_⟩
    · cases stale <;> cases empty <;>
        · unfold allWritesLocked getInstalledTrace ensureCacheTrace rescanTrace
          simp only [Bool.false_eq_true, if_false, if_true, List.cons_append,
            List.nil_append, List.append_assoc]
          first
            | (rw [show ∀ rest, annotate false (LockEv.readTimestamp :: rest) =
                    (LockEv.readTimestamp, false) :: annotate false rest from
                    fun _ => rfl]
               rw [List.all_cons]
               first
                 | (rw [hwalkmap _ roots _ (fun r => rfl)]; decide)
                 | (rw [show ∀ rest, annotate false (LockEv.readCache :: rest) =
                         (LockEv.readCache, false) :: annotate false rest from
                         fun _ => rfl]
                    rw [List.all_cons]
                    first
                      | (rw [hwalkmap _ roots _ (fun r => rfl)]; decide)
                      | decide))
    · cases stale <;> cases empty <;>
        · unfold walksUnlocked getInstalledTrace ensureCacheTrace rescanTrace
          simp only [Bool.false_eq_true, if_false, if_true, List.cons_append,
            List.nil_append, List.append_assoc]
          first
            | (rw [show ∀ rest, annotate false (LockEv.readTimestamp :: rest) =
                    (LockEv.readTimestamp, false) :: annotate false rest from
                    fun _ => rfl]
               rw [List.all_cons]
               first
                 | (rw [hwalkmap _ roots _ (fun r => rfl)]; decide)
                 | (rw [show ∀ rest, annotate false (LockEv.readCache :: rest) =
                         (LockEv.readCache, false) :: annotate false rest from
                         fun _ => rfl]
                    rw [List.all_cons]
                    first
                      | (rw [hwalkmap _ roots _ (fun r => rfl)]; decide)
                      | decide))
    · intro hrescan
      cases stale with
      | true =>
        refine ⟨LockEv.readTimestamp :: roots.map LockEv.walkRoot,
          [LockEv.acquire, LockEv.readCache, LockEv.release], ?_⟩
        simp [getInstalledTrace, ensureCacheTrace, rescanTrace]
      | false =>
        cases empty with
        | true =>
          refine ⟨LockEv.readTimestamp :: LockEv.readCache ::
            roots.map LockEv.walkRoot,
            [LockEv.acquire, LockEv.readCache, LockEv.release], ?_⟩
          simp [getInstalledTrace, ensureCacheTrace, rescanTrace]
        | false => simp at hrescan
    · exact List.suffix_append _ _
  · intro roots
    refine ⟨?_, ?_, ?_⟩
    · unfold allWritesLocked forceScanTrace rescanTrace
      rw [List.append_assoc, hwalkmap _ roots _ (fun r => rfl)]
      decide
    · unfold walksUnlocked forceScanTrace rescanTrace
      rw [List.append_assoc, hwalkmap _ roots _ (fun r => rfl)]
      decide
    · refine ⟨roots.map LockEv.walkRoot,
        [LockEv.acquire, LockEv.readCache, LockEv.release], ?_⟩
      simp [forceScanTrace, rescanTrace]

/-- C8 witness: the discipline instantiated on a one-root stale call,
including the atomic cache+timestamp swap block. -/
theorem claim_C8_lock_discipline_witness :
    allWritesLocked (getInstalledTrace ["/plugins"] true false) = true ∧
      [LockEv.acquire, LockEv.writeCache, LockEv.writeTimestamp, LockEv.release]
        <:+: getInstalledTrace ["/plugins"] true false :=
  ⟨(claim_C8_lock_discipline.1 ["/plugins"] true false).1,
    (claim_C8_lock_discipline.1 ["/plugins"] true false).2.2.1 rfl⟩

end ReaperMcp
